import Mathlib

/-!
Shallow embedding of the `mix` repository (src/rng.py, src/dist.py,
src/datasets.py) and proofs about its dataset/distribution hierarchy.

Modelling conventions:
* Python floats are modelled as rationals (`ℚ`); sample payloads produced by
  finite datasets are Python ints or `None`, modelled by `PyVal`.
* numpy's `default_rng(seed)` is modelled as a deterministic stream: a pair of
  the seed and the number of draws consumed so far, with the draw value a
  fixed function `unitVal` of that pair.  Bit-exact parity with numpy's PCG64
  is waived (the spec allows a fixed deterministic implementation); the first
  nine unit draws of the stream seeded with the repository's default seed 42
  follow the documented output of `numpy.random.default_rng(42)` so that
  value-level statements about the demo scenarios track the real program.
* Exceptions (`IndexError`, `AttributeError`, `ValueError`, `StopIteration`)
  are modelled with `Except` and the `PyErr` type below.
-/

namespace Mix

/-- Python exception kinds raised by the modelled code paths.  The spec calls
`valueError` "InvalidArgument" and `indexError` "IndexOutOfRange". -/
inductive PyErr where
  | indexError
  | attributeError
  | valueError
  | stopIteration
deriving DecidableEq

/-- A Python value as produced by finite-dataset element access: an int from
the backing data, or `None` (which `MixedFiniteDataset.__getitem__` returns
when its routing loop falls through). -/
inductive PyVal where
  | vint (z : ℤ)
  | vnone
deriving DecidableEq

/-! ## RandomStream (src/rng.py, numpy generator model)

`RNGUser.reset_rng(seed=42)` installs `np.random.default_rng(seed)`.  A
generator is modelled by its seed and the number of unit draws consumed. -/

/-- One step of a 64-bit linear congruential generator, used as the fallback
stream function for seeds/positions outside the tabulated prefix. -/
def lcgStep (x : ℕ) : ℕ :=
  (6364136223846793005 * x + 1442695040888963407) % 2 ^ 64

/-- Iterated LCG, always reduced modulo `2 ^ 64`. -/
def lcgIter : ℕ → ℕ → ℕ
  | 0, x => x % 2 ^ 64
  | n + 1, x => lcgStep (lcgIter n x)

/-- First unit draws of the default generator seeded with 42, as printed by
`numpy.random.default_rng(42)` (8 decimal places). -/
def rng42 : List ℚ :=
  [(77395605 : ℚ) / 100000000, (43887844 : ℚ) / 100000000,
   (85859792 : ℚ) / 100000000, (69736803 : ℚ) / 100000000,
   (9417735 : ℚ) / 100000000, (97562235 : ℚ) / 100000000,
   (76113970 : ℚ) / 100000000, (78606431 : ℚ) / 100000000,
   (12811363 : ℚ) / 100000000]

/-- Unit draw in `[0, 1)` of the stream `seed` at draw index `pos`. -/
def unitVal (seed pos : ℕ) : ℚ :=
  if seed = 42 ∧ pos < rng42.length then rng42.getD pos 0
  else (lcgIter (pos + 1) seed : ℚ) / 2 ^ 64

/-- State of one `np.random.default_rng` instance: its seed and how many unit
draws have been consumed since seeding. -/
structure RNG where
  seed : ℕ
  pos : ℕ
deriving DecidableEq

/-- A freshly seeded generator (`np.random.default_rng(seed)`). -/
def RNG.fresh (seed : ℕ) : RNG := ⟨seed, 0⟩

/-- Consume one unit draw in `[0, 1)`. -/
def RNG.unit (r : RNG) : ℚ × RNG :=
  (unitVal r.seed r.pos, ⟨r.seed, r.pos + 1⟩)

/-- `rng.uniform(lo, hi)`: one draw in `[lo, hi)`. -/
def RNG.uniform (r : RNG) (lo hi : ℚ) : ℚ × RNG :=
  let p := r.unit
  (lo + (hi - lo) * p.1, p.2)

/-- Index selection against cumulative weights: the first index whose running
total exceeds the unit draw (numpy's inverse-CDF choice). -/
def weightedIdx : ℚ → ℚ → ℕ → List ℚ → ℕ
  | _, _, i, [] => i - 1
  | u, acc, i, w :: rest =>
    if u < acc + w then i else weightedIdx u (acc + w) (i + 1) rest

/-- `rng.choice(items, p=ps)` restricted to what the dispatcher needs: the
chosen index among `n` items.  With `ps = none` the choice is uniform
(index `⌊u * n⌋`); with explicit weights it is the cumulative-weight index. -/
def RNG.choice (r : RNG) (n : ℕ) (ps : Option (List ℚ)) : ℕ × RNG :=
  let p := r.unit
  match ps with
  | none => (min (n - 1) (Int.toNat ⌊p.1 * (n : ℚ)⌋), p.2)
  | some ws => (weightedIdx p.1 0 0 ws, p.2)

/-- Every LCG fallback value is reduced modulo `2 ^ 64`. -/
theorem lcgIter_lt (n x : ℕ) : lcgIter n x < 2 ^ 64 := by
  cases n with
  | zero => exact Nat.mod_lt _ (by norm_num)
  | succ m => exact Nat.mod_lt _ (by norm_num)

set_option maxRecDepth 8000 in
/-- Unit draws lie in `[0, 1)`. -/
theorem unitVal_mem (seed pos : ℕ) : 0 ≤ unitVal seed pos ∧ unitVal seed pos < 1 := by
  unfold unitVal
  split
  · rename_i h
    obtain ⟨-, hpos⟩ := h
    simp only [rng42, List.length] at hpos
    interval_cases pos <;> constructor <;> norm_num [rng42]
  · have hlt : (lcgIter (pos + 1) seed : ℚ) < 2 ^ 64 := by
      exact_mod_cast lcgIter_lt (pos + 1) seed
    have h0 : (0 : ℚ) ≤ (lcgIter (pos + 1) seed : ℚ) := Nat.cast_nonneg _
    have h2 : (0 : ℚ) < 2 ^ 64 := by norm_num
    exact ⟨div_nonneg h0 h2.le, (div_lt_one h2).mpr hlt⟩

/-! ## Distributions (src/dist.py)

`Continuous.__init__(seed)` stores `self.seed = seed` and calls
`self.reset_rng(seed)`.  `UniformContinuous` owns the stream directly;
`PowerContinuous` overrides `reset_rng` to forward to its internal
`UniformContinuous`, so a `PowerContinuous` instance never acquires a stream
of its own (no `self.rng` attribute is ever set on it). -/

/-- `UniformContinuous`: stored seed, owned stream, bounds. -/
structure UniformContinuous where
  seed : ℕ
  rng : RNG
  lo : ℚ
  hi : ℚ
deriving DecidableEq

/-- Constructor `UniformContinuous(lo, hi, seed)`. -/
def UniformContinuous.make (lo hi : ℚ) (seed : ℕ) : UniformContinuous :=
  ⟨seed, RNG.fresh seed, lo, hi⟩

/-- `reset_rng(seed)` on a uniform: replace the stream by a fresh generator
seeded with the argument; the stored `self.seed` is untouched. -/
def UniformContinuous.reset_rng (u : UniformContinuous) (seed : ℕ) : UniformContinuous :=
  ⟨u.seed, RNG.fresh seed, u.lo, u.hi⟩

/-- `sample()` on a uniform: `self.rng.uniform(self.lo, self.hi)`. -/
def UniformContinuous.sample (u : UniformContinuous) : ℚ × UniformContinuous :=
  let p := u.rng.uniform u.lo u.hi
  (p.1, ⟨u.seed, p.2, u.lo, u.hi⟩)

/-- `PowerContinuous`: exponent, internal uniform, stored seed.  There is no
stream field: the class forwards all stream operations to `uniform`. -/
structure PowerContinuous where
  power : ℤ
  uniform : UniformContinuous
  seed : ℕ
deriving DecidableEq

/-- Constructor `PowerContinuous(lo, hi, power, seed)`: builds the internal
`UniformContinuous(lo, hi)` with the DEFAULT seed 42, then
`Continuous.__init__(seed)` stores `seed` and calls the overridden
`reset_rng(seed)`, which reseeds the internal uniform's stream with `seed`
(the internal uniform's own `seed` field stays 42). -/
def PowerContinuous.make (lo hi : ℚ) (power : ℤ) (seed : ℕ) : PowerContinuous :=
  ⟨power, (UniformContinuous.make lo hi 42).reset_rng seed, seed⟩

/-- `reset_rng(seed)` on a power distribution forwards to the internal
uniform's `reset_rng`. -/
def PowerContinuous.reset_rng (p : PowerContinuous) (seed : ℕ) : PowerContinuous :=
  ⟨p.power, p.uniform.reset_rng seed, p.seed⟩

/-- `sample()` on a power distribution: `self.uniform.sample() ** self.power`. -/
def PowerContinuous.sample (p : PowerContinuous) : ℚ × PowerContinuous :=
  let q := p.uniform.sample
  (q.1 ^ p.power, ⟨p.power, q.2, p.seed⟩)

/-- The `Continuous` capability: the closed set of distribution variants the
repository defines. -/
inductive Continuous where
  | uni (u : UniformContinuous)
  | pw (p : PowerContinuous)
deriving DecidableEq

/-- Polymorphic `sample()`. -/
def Continuous.sample : Continuous → ℚ × Continuous
  | uni u => let q := u.sample; (q.1, uni q.2)
  | pw p => let q := p.sample; (q.1, pw q.2)

/-- Polymorphic `reset_rng(seed)`. -/
def Continuous.reset_rng : Continuous → ℕ → Continuous
  | uni u, s => uni (u.reset_rng s)
  | pw p, s => pw (p.reset_rng s)

/-- The stored `self.seed` of a distribution. -/
def Continuous.seed : Continuous → ℕ
  | uni u => u.seed
  | pw p => p.seed

/-- Sampling never changes what a subsequent seed-directed reset produces:
draws only advance stream positions, which reset overwrites. -/
theorem Continuous.sample_reset (c : Continuous) :
    (c.sample.2).reset_rng c.sample.2.seed = c.reset_rng c.seed := by
  cases c with
  | uni u => rfl
  | pw p => rfl

/-- Resetting preserves the stored seed. -/
theorem Continuous.reset_seed (c : Continuous) (s : ℕ) :
    (c.reset_rng s).seed = c.seed := by
  cases c <;> rfl

/-- Resetting twice with the same seed is the same as resetting once. -/
theorem Continuous.reset_idem (c : Continuous) (s t : ℕ) :
    (c.reset_rng t).reset_rng s = c.reset_rng s := by
  cases c <;> rfl

/-! ## Finite datasets (src/datasets.py)

`FiniteDataset` leaves (`MyFiniteDataset`-style, a backing list of ints) and
`MixedFiniteDataset` composites, each carrying the iteration cursor
`self.idx`.  `FinList` is the composite's child list. -/

mutual
/-- A finite dataset: a `MyFiniteDataset`-style leaf over backing data, or a
`MixedFiniteDataset` over an ordered child list.  `idx` is the instance's
iteration cursor (`self.idx`), 0 after construction. -/
inductive FiniteDataset where
  | myFinite (data : List ℤ) (idx : ℕ)
  | mixedFinite (datasets : FinList) (idx : ℕ)
/-- The child list of a `MixedFiniteDataset`. -/
inductive FinList where
  | nil
  | cons (d : FiniteDataset) (rest : FinList)
end

mutual
/-- `__len__`: leaf length is the backing list's length; a mixture's length is
the sum of the children's lengths (`self.size = sum(self.lens)`). -/
def FiniteDataset.len : FiniteDataset → ℕ
  | .myFinite data _ => data.length
  | .mixedFinite ds _ => ds.sumLen
/-- Sum of the lengths of a child list. -/
def FinList.sumLen : FinList → ℕ
  | .nil => 0
  | .cons d rest => d.len + rest.sumLen
end

/-- Python list indexing `data[idx]` for a list of ints: indices in
`[0, len)` address from the front, indices in `[-len, -1]` from the back, and
anything else raises `IndexError`. -/
def pyGet (data : List ℤ) (i : ℤ) : Except PyErr ℤ :=
  if 0 ≤ i ∧ i < (data.length : ℤ) then .ok (data.getD i.toNat 0)
  else if -(data.length : ℤ) ≤ i ∧ i < 0 then
    .ok (data.getD ((data.length : ℤ) + i).toNat 0)
  else .error .indexError

mutual
/-- `__getitem__`: a leaf delegates to Python list indexing; a mixture walks
its children (`for dataset, size in zip(self.datasets, self.lens)`),
delegating once the remaining index is below a child's size. -/
def FiniteDataset.getitem : FiniteDataset → ℤ → Except PyErr PyVal
  | .myFinite data _, i => (pyGet data i).map PyVal.vint
  | .mixedFinite ds _, i => ds.walk i
/-- The routing loop of `MixedFiniteDataset.__getitem__`; when the loop falls
through, the Python method implicitly returns `None`. -/
def FinList.walk : FinList → ℤ → Except PyErr PyVal
  | .nil, _ => .ok PyVal.vnone
  | .cons d rest, i =>
    if i < (d.len : ℤ) then d.getitem i else rest.walk (i - (d.len : ℤ))
end

/-- The instance's own cursor `self.idx`. -/
def FiniteDataset.cursor : FiniteDataset → ℕ
  | .myFinite _ idx => idx
  | .mixedFinite _ idx => idx

/-- Replace the instance's own cursor. -/
def FiniteDataset.withCursor : FiniteDataset → ℕ → FiniteDataset
  | .myFinite data _, i => .myFinite data i
  | .mixedFinite ds _, i => .mixedFinite ds i

/-- `__next__`: raise `StopIteration` when the cursor has reached the size,
otherwise look the cursor up and advance it by one. -/
def FiniteDataset.next (d : FiniteDataset) : Except PyErr (PyVal × FiniteDataset) :=
  if d.len ≤ d.cursor then .error .stopIteration
  else
    match d.getitem (d.cursor : ℤ) with
    | .error e => .error e
    | .ok v => .ok (v, d.withCursor (d.cursor + 1))

/-- `FiniteDataset.reset`: the method body is `self._reset(); return`, and the
`_reset` hook inherited from `Dataset` is `pass`.  No finite subclass
overrides `_reset`, so reset changes nothing — in particular the cursor is
NOT rewound and a mixture's children are NOT reset. -/
def FiniteDataset.reset (d : FiniteDataset) : FiniteDataset := d

/-- Draw up to `n` elements by repeated `__next__`, stopping early at
`StopIteration` (or any error). -/
def FiniteDataset.take : FiniteDataset → ℕ → List PyVal × FiniteDataset
  | d, 0 => ([], d)
  | d, n + 1 =>
    match d.next with
    | .error _ => ([], d)
    | .ok (v, d') => let p := d'.take n; (v :: p.1, p.2)

/-- Concatenation of child lists (`self.datasets + other.datasets`). -/
def FinList.append : FinList → FinList → FinList
  | .nil, l => l
  | .cons d rest, l => .cons d (rest.append l)

/-- The `+` operator.  `FiniteDataset.__add__` (used when the left operand is
a leaf) builds `MixedFiniteDataset([self, other])`, keeping both operands as
the two children.  `MixedFiniteDataset.__add__` overrides it with
`MixedFiniteDataset(self.datasets + other.datasets)`, which reads
`other.datasets`: for a leaf right operand that attribute does not exist and
the call raises `AttributeError`. -/
def FiniteDataset.add : FiniteDataset → FiniteDataset → Except PyErr FiniteDataset
  | .myFinite data c, other =>
    .ok (.mixedFinite (.cons (.myFinite data c) (.cons other .nil)) 0)
  | .mixedFinite ds _, .mixedFinite ds2 _ => .ok (.mixedFinite (ds.append ds2) 0)
  | .mixedFinite _ _, .myFinite _ _ => .error .attributeError

/-- `MyFiniteDataset()`: backing data `[0, 1, 2, 3]`, cursor 0. -/
def myFiniteDataset : FiniteDataset := .myFinite [0, 1, 2, 3] 0

/-- `MixedFiniteDataset(datasets)`: record the children (not reset, not
copied) and start the composite's own cursor at 0. -/
def mixedFiniteDataset (ds : FinList) : FiniteDataset := .mixedFinite ds 0

/-! ### Lemmas about finite-dataset indexing and concatenation -/

/-- Python indexing fails exactly outside `[-len, len)`. -/
theorem pyGet_err (data : List ℤ) (i : ℤ)
    (h : (data.length : ℤ) ≤ i ∨ i < -(data.length : ℤ)) :
    pyGet data i = .error .indexError := by
  unfold pyGet
  rw [if_neg (by omega), if_neg (by omega)]

/-- Python indexing with a negative in-range index addresses from the back. -/
theorem pyGet_neg (data : List ℤ) (i : ℤ) (h1 : -(data.length : ℤ) ≤ i) (h2 : i < 0) :
    pyGet data i = .ok (data.getD ((data.length : ℤ) + i).toNat 0) := by
  unfold pyGet
  rw [if_neg (by omega), if_pos ⟨h1, h2⟩]

/-- Leaf `__getitem__` unfolds to Python list indexing. -/
theorem getitem_myFinite (data : List ℤ) (c : ℕ) (i : ℤ) :
    FiniteDataset.getitem (.myFinite data c) i = (pyGet data i).map PyVal.vint := by
  simp [FiniteDataset.getitem]

/-- Mixed `__getitem__` unfolds to the routing walk. -/
theorem getitem_mixedFinite (l : FinList) (c : ℕ) (i : ℤ) :
    FiniteDataset.getitem (.mixedFinite l c) i = l.walk i := by
  simp [FiniteDataset.getitem]

/-- When the index is at least the total size, the routing loop of
`MixedFiniteDataset.__getitem__` falls off the end and returns `None`. -/
theorem FinList.walk_overflow : (l : FinList) → (i : ℤ) → ((l.sumLen : ℤ) ≤ i) →
    l.walk i = .ok PyVal.vnone
  | .nil, _, _ => rfl
  | .cons d rest, i, h => by
    simp only [FinList.sumLen, Nat.cast_add] at h
    have h0 : (0 : ℤ) ≤ (rest.sumLen : ℤ) := Int.natCast_nonneg _
    have hc : ¬ i < (d.len : ℤ) := by omega
    simp only [FinList.walk, if_neg hc]
    exact walk_overflow rest (i - (d.len : ℤ)) (by omega)

/-- Appending child lists adds their total sizes. -/
theorem FinList.sumLen_append : (as bs : FinList) →
    (as.append bs).sumLen = as.sumLen + bs.sumLen
  | .nil, bs => by simp [FinList.append, FinList.sumLen]
  | .cons d rest, bs => by
    simp only [FinList.append, FinList.sumLen, sumLen_append rest bs]
    omega

/-- Routing over an appended child list, left part: a nonnegative index below
the left total resolves inside the left list. -/
theorem FinList.walk_append_left : (as bs : FinList) → (i : ℤ) → 0 ≤ i →
    (i < (as.sumLen : ℤ)) → (as.append bs).walk i = as.walk i
  | .nil, _, i, h0, h1 => by
    simp only [FinList.sumLen, Nat.cast_zero] at h1
    exact absurd h1 (not_lt.mpr h0)
  | .cons d rest, bs, i, h0, h1 => by
    simp only [FinList.append, FinList.walk]
    by_cases hc : i < (d.len : ℤ)
    · rw [if_pos hc, if_pos hc]
    · rw [if_neg hc, if_neg hc]
      refine walk_append_left rest bs (i - (d.len : ℤ)) (by omega) ?_
      simp only [FinList.sumLen, Nat.cast_add] at h1
      omega

/-- Routing over an appended child list, right part: an index at least the
left total resolves in the right list, shifted by the left total. -/
theorem FinList.walk_append_right : (as bs : FinList) → (i : ℤ) →
    ((as.sumLen : ℤ) ≤ i) → (as.append bs).walk i = bs.walk (i - (as.sumLen : ℤ))
  | .nil, bs, i, _ => by
    simp [FinList.append, FinList.sumLen]
  | .cons d rest, bs, i, h => by
    simp only [FinList.sumLen, Nat.cast_add] at h
    have h0 : (0 : ℤ) ≤ (rest.sumLen : ℤ) := Int.natCast_nonneg _
    have hc : ¬ i < (d.len : ℤ) := by omega
    simp only [FinList.append, FinList.walk, if_neg hc]
    rw [walk_append_right rest bs (i - (d.len : ℤ)) (by omega)]
    congr 1
    push_cast [FinList.sumLen]
    ring

/-! ### Claim theorems about finite datasets -/

/-- C2: the claim says `reset(); take(N)` repeats the same sequence for any
dataset.  The code violates it for finite datasets: `FiniteDataset.reset`
only calls the no-op `_reset` hook and never rewinds the cursor, so on
`MyFiniteDataset` the two takes after two resets yield `[0, 1]` and then
`[2, 3]`.  This theorem evaluates the code at that failing input. -/
theorem finite_reset_take_not_idempotent :
    ((myFiniteDataset.reset).take 2).1 = [PyVal.vint 0, PyVal.vint 1]
    ∧ (((myFiniteDataset.reset).take 2).2.reset.take 2).1 = [PyVal.vint 2, PyVal.vint 3] :=
  ⟨rfl, rfl⟩

/-- C3: the claim says finite `reset()` rewinds the cursor to 0 and that a
`MixedFiniteDataset` additionally resets its children.  The code's
`FiniteDataset.reset` is `self._reset(); return` with `_reset` a `pass`, so
reset is the identity: after one `next()` the cursor remains 1 through a
reset, and a mixture with an advanced child is returned unchanged. -/
theorem finite_reset_is_noop :
    (∀ d : FiniteDataset, d.reset = d)
    ∧ ((myFiniteDataset.take 1).2.reset).cursor = 1
    ∧ (mixedFiniteDataset (.cons (.myFinite [0, 1, 2, 3] 3) .nil)).reset
        = mixedFiniteDataset (.cons (.myFinite [0, 1, 2, 3] 3) .nil) :=
  ⟨fun _ => rfl, rfl, rfl⟩

/-- C4 counterexample: `get(-1)` does not fail on a leaf — Python's negative
indexing returns the last element — and `get(length())` on a mixture returns
`None` instead of raising. -/
theorem getitem_out_of_range_counterexample :
    FiniteDataset.getitem (.myFinite [0, 1, 2, 3] 0) (-1) = .ok (.vint 3)
    ∧ FiniteDataset.getitem (mixedFiniteDataset (.cons myFiniteDataset .nil)) 4
        = .ok .vnone :=
  ⟨rfl, rfl⟩

/-- C4 amended: on a leaf, `get(index)` raises `IndexError` exactly for
`index >= length` or `index < -length`, while `index` in `[-length, 0)`
returns the element `length + index` from the backing data; on a mixture,
`get(index)` with `index >= length` returns `None` and raises nothing. -/
theorem getitem_bounds_characterization :
    (∀ (data : List ℤ) (c : ℕ) (i : ℤ),
      ((data.length : ℤ) ≤ i ∨ i < -(data.length : ℤ)) →
        FiniteDataset.getitem (.myFinite data c) i = .error .indexError)
    ∧ (∀ (data : List ℤ) (c : ℕ) (i : ℤ), -(data.length : ℤ) ≤ i → i < 0 →
        FiniteDataset.getitem (.myFinite data c) i
          = .ok (.vint (data.getD ((data.length : ℤ) + i).toNat 0)))
    ∧ (∀ (l : FinList) (c : ℕ) (i : ℤ), ((FiniteDataset.mixedFinite l c).len : ℤ) ≤ i →
        FiniteDataset.getitem (.mixedFinite l c) i = .ok .vnone) := by
  refine ⟨fun data c i h => ?_, fun data c i h1 h2 => ?_, fun l c i h => ?_⟩
  · rw [getitem_myFinite, pyGet_err data i h]
    rfl
  · rw [getitem_myFinite, pyGet_neg data i h1 h2]
    rfl
  · rw [getitem_mixedFinite]
    exact FinList.walk_overflow l i (by simpa [FiniteDataset.len] using h)

/-- C4 witness: the characterization evaluated at `MyFiniteDataset`'s data
`[0, 1, 2, 3]` (indices 4 and -1) and at a one-child mixture (index 4). -/
theorem getitem_bounds_witness :
    FiniteDataset.getitem (.myFinite [0, 1, 2, 3] 0) 4 = .error .indexError
    ∧ FiniteDataset.getitem (.myFinite [0, 1, 2, 3] 0) (-1)
        = .ok (.vint (List.getD [0, 1, 2, 3] (((List.length [0, 1, 2, 3] : ℤ)) + -1).toNat 0))
    ∧ FiniteDataset.getitem (.mixedFinite (.cons myFiniteDataset .nil) 0) 4 = .ok .vnone :=
  ⟨getitem_bounds_characterization.1 [0, 1, 2, 3] 0 4 (by decide),
   getitem_bounds_characterization.2.1 [0, 1, 2, 3] 0 (-1) (by decide) (by decide),
   getitem_bounds_characterization.2.2 (.cons myFiniteDataset .nil) 0 4 (by decide)⟩

/-- C5 counterexample: the claim quantifies over every pair of finite
datasets, but `+` with a mixed left operand and a leaf right operand does not
produce a concatenation at all — `MixedFiniteDataset.__add__` reads
`other.datasets` and raises `AttributeError`. -/
theorem concat_mixed_leaf_counterexample :
    FiniteDataset.add (.mixedFinite (.cons myFiniteDataset .nil) 0) myFiniteDataset
      = .error .attributeError :=
  rfl

/-- C5 amended: whenever `a + b` is defined (left operand a leaf, or both
operands mixed), the concatenation has length `len a + len b`, routes indices
`0 <= i < len a` to `a.get(i)`, and routes `len a <= i < len a + len b` to
`b.get(i - len a)`. -/
theorem concat_length_getitem (a b c : FiniteDataset) (h : a.add b = .ok c) :
    c.len = a.len + b.len
    ∧ (∀ i : ℤ, 0 ≤ i → i < (a.len : ℤ) → c.getitem i = a.getitem i)
    ∧ (∀ i : ℤ, (a.len : ℤ) ≤ i → i < (a.len : ℤ) + (b.len : ℤ) →
        c.getitem i = b.getitem (i - (a.len : ℤ))) := by
  cases a with
  | myFinite data ca =>
    simp only [FiniteDataset.add, Except.ok.injEq] at h
    subst h
    refine ⟨?_, fun i h0 h1 => ?_, fun i h1 h2 => ?_⟩
    · simp only [FiniteDataset.len, FinList.sumLen]
      omega
    · rw [getitem_mixedFinite]
      simp only [FinList.walk]
      rw [if_pos h1]
    · rw [getitem_mixedFinite]
      simp only [FinList.walk]
      rw [if_neg (not_lt.mpr h1), if_pos (by omega)]
  | mixedFinite as ca =>
    cases b with
    | myFinite db cb => simp [FiniteDataset.add] at h
    | mixedFinite bs cb =>
      simp only [FiniteDataset.add, Except.ok.injEq] at h
      subst h
      refine ⟨?_, fun i h0 h1 => ?_, fun i h1 h2 => ?_⟩
      · simp only [FiniteDataset.len, FinList.sumLen_append]
      · rw [getitem_mixedFinite, getitem_mixedFinite]
        exact FinList.walk_append_left as bs i h0 (by simpa [FiniteDataset.len] using h1)
      · rw [getitem_mixedFinite, getitem_mixedFinite]
        exact FinList.walk_append_right as bs i (by simpa [FiniteDataset.len] using h1)

/-- C5 witness: the amended concatenation contract evaluated on
`MyFiniteDataset() + MyFiniteDataset()`. -/
theorem concat_length_getitem_witness :
    FiniteDataset.add myFiniteDataset myFiniteDataset
      = .ok (.mixedFinite (.cons myFiniteDataset (.cons myFiniteDataset .nil)) 0)
    ∧ ((FiniteDataset.mixedFinite (.cons myFiniteDataset (.cons myFiniteDataset .nil)) 0).len
        = myFiniteDataset.len + myFiniteDataset.len
      ∧ (∀ i : ℤ, 0 ≤ i → i < (myFiniteDataset.len : ℤ) →
          (FiniteDataset.mixedFinite (.cons myFiniteDataset (.cons myFiniteDataset .nil)) 0).getitem i
            = myFiniteDataset.getitem i)
      ∧ (∀ i : ℤ, (myFiniteDataset.len : ℤ) ≤ i →
          i < (myFiniteDataset.len : ℤ) + (myFiniteDataset.len : ℤ) →
          (FiniteDataset.mixedFinite (.cons myFiniteDataset (.cons myFiniteDataset .nil)) 0).getitem i
            = myFiniteDataset.getitem (i - (myFiniteDataset.len : ℤ)))) :=
  ⟨rfl, concat_length_getitem myFiniteDataset myFiniteDataset _ rfl⟩

/-- C6 counterexample: `+` does not flatten in either operand order — a leaf
left operand nests a mixed right operand one level deeper (the result's
second child is itself a composite), and a left-associated sum
`(a + b) + c` of leaves fails with `AttributeError`, so `+` is not
associative either. -/
theorem concat_no_flatten_counterexample :
    FiniteDataset.add myFiniteDataset (.mixedFinite (.cons myFiniteDataset .nil) 0)
      = .ok (.mixedFinite
          (.cons myFiniteDataset (.cons (.mixedFinite (.cons myFiniteDataset .nil) 0) .nil)) 0)
    ∧ (FiniteDataset.add myFiniteDataset myFiniteDataset).bind
        (fun s => s.add myFiniteDataset) = .error .attributeError :=
  ⟨rfl, rfl⟩

/-- C6 amended: `+` flattens (merges child lists) only when both operands are
mixed; a leaf left operand always wraps the two operands as exactly two
children, nesting a mixed right operand one level; a mixed left operand with
a leaf right operand raises `AttributeError`; consequently any
left-associated sum starting from a leaf and ending in a leaf raises, so `+`
is not associative. -/
theorem concat_flatten_characterization :
    (∀ (as : FinList) (ca : ℕ) (bs : FinList) (cb : ℕ),
      FiniteDataset.add (.mixedFinite as ca) (.mixedFinite bs cb)
        = .ok (.mixedFinite (as.append bs) 0))
    ∧ (∀ (data : List ℤ) (c : ℕ) (other : FiniteDataset),
      FiniteDataset.add (.myFinite data c) other
        = .ok (.mixedFinite (.cons (.myFinite data c) (.cons other .nil)) 0))
    ∧ (∀ (as : FinList) (ca : ℕ) (data : List ℤ) (c : ℕ),
      FiniteDataset.add (.mixedFinite as ca) (.myFinite data c) = .error .attributeError)
    ∧ (∀ (d1 : List ℤ) (c1 : ℕ) (x : FiniteDataset) (d3 : List ℤ) (c3 : ℕ),
      (FiniteDataset.add (.myFinite d1 c1) x).bind (fun s => s.add (.myFinite d3 c3))
        = .error .attributeError) :=
  ⟨fun _ _ _ _ => rfl, fun _ _ _ => rfl, fun _ _ _ _ => rfl, fun _ _ _ _ _ => rfl⟩

/-! ## Infinite datasets (src/datasets.py)

`InfiniteDataset` leaves hold a stored (unused) `self.seed`, an own stream
installed by `reset_rng`, and the ordered `parent_vars` mapping of named
parent distributions.  The only concrete leaf subclass in the repository is
`MyInfiniteDataset`, whose `gen_sample(l, frac)` returns `frac * l`; the leaf
constructor below keeps `parent_vars` generic, with that combiner.
`MixedInfiniteDataset` holds child datasets (themselves possibly mixtures),
optional weights `ps`, and its own selection stream. -/

mutual
/-- An infinite dataset: a `MyInfiniteDataset`-style leaf, or a
`MixedInfiniteDataset` over a child list with optional weights. -/
inductive InfiniteDataset where
  | myInfinite (seed : ℕ) (rng : RNG) (parent_vars : List (String × Continuous))
  | mixedInfinite (seed : ℕ) (rng : RNG) (datasets : InfList) (ps : Option (List ℚ))
/-- The child list of a `MixedInfiniteDataset`. -/
inductive InfList where
  | nil
  | cons (d : InfiniteDataset) (rest : InfList)
end

/-- Number of children (`len(self.datasets)`). -/
def InfList.len : InfList → ℕ
  | .nil => 0
  | .cons _ rest => rest.len + 1

/-- `sample_parent_vars()`: draw one value from every parent distribution, in
dictionary (insertion) order, returning the named values and the updated
distributions. -/
def sampleParents : List (String × Continuous) →
    List (String × ℚ) × List (String × Continuous)
  | [] => ([], [])
  | (n, c) :: rest =>
    let q := c.sample
    let p := sampleParents rest
    ((n, q.1) :: p.1, (n, q.2) :: p.2)

/-- `MyInfiniteDataset.gen_sample(l=None, frac=None)`: `frac * l`, reading the
two named parent draws. -/
def genSample (vals : List (String × ℚ)) : ℚ :=
  (List.lookup "frac" vals).getD 0 * (List.lookup "l" vals).getD 0

mutual
/-- One `__next__` step.  A leaf draws every parent and combines
(`gen_sample(**self.sample_parent_vars())`); a mixture draws a child index
from its own stream (`self.rng.choice(self.datasets, p=self.ps)`) and
delegates the full step to that child.  Besides the sample value, the result
records the chosen child index at each mixture level traversed (observability
instrumentation; not a value the source computes). -/
def InfiniteDataset.step : InfiniteDataset → (ℚ × List ℕ) × InfiniteDataset
  | .myInfinite s r pv =>
    let p := sampleParents pv
    ((genSample p.1, []), .myInfinite s r p.2)
  | .mixedInfinite s r ds ps =>
    let c := r.choice ds.len ps
    let q := InfList.stepAt ds c.1
    ((q.1.1, c.1 :: q.1.2), .mixedInfinite s c.2 q.2 ps)
/-- Step the child at a given index, leaving the others untouched.  numpy's
`choice` on a nonempty list always returns an in-range index; the `nil` row
is unreachable in use (on an empty child list numpy itself would raise). -/
def InfList.stepAt : InfList → ℕ → (ℚ × List ℕ) × InfList
  | .nil, _ => ((0, []), .nil)
  | .cons d rest, 0 => let q := d.step; (q.1, .cons q.2 rest)
  | .cons d rest, i + 1 => let q := rest.stepAt i; (q.1, .cons d q.2)
end

/-- The loop body of `InfiniteDataset.reset` over `parent_vars`:
`dist.reset_rng(dist.seed)` for every parent, i.e. each distribution's stream
is reseeded with that distribution's own stored seed. -/
def resetParents (pv : List (String × Continuous)) : List (String × Continuous) :=
  pv.map fun p => (p.1, p.2.reset_rng p.2.seed)

mutual
/-- `reset()`.  On a leaf (`InfiniteDataset.reset`): `self._reset()` (a
no-op), then `self.reset_rng()` — with NO argument, so the own stream is
reseeded with the DEFAULT seed 42, not with `self.seed` — then every parent
distribution is reset with its own stored seed.  On a mixture
(`MixedInfiniteDataset.reset`): every child is deeply reset first, then the
dispatcher's own stream is reseeded (again with the default 42). -/
def InfiniteDataset.reset : InfiniteDataset → InfiniteDataset
  | .myInfinite s _ pv => .myInfinite s (RNG.fresh 42) (resetParents pv)
  | .mixedInfinite s _ ds ps => .mixedInfinite s (RNG.fresh 42) ds.resetAll ps
/-- Reset every child of a mixture, in order. -/
def InfList.resetAll : InfList → InfList
  | .nil => .nil
  | .cons d rest => .cons d.reset rest.resetAll
end

/-- Construction of an `InfiniteDataset` leaf with parents `pv` and dataset
seed `seed`: `self.seed = seed; self.parent_vars = pv`, then
`Dataset.__init__` calls `self.reset()`. -/
def InfiniteDataset.make (pv : List (String × Continuous)) (seed : ℕ) : InfiniteDataset :=
  InfiniteDataset.reset (.myInfinite seed (RNG.fresh 42) pv)

/-- `MyInfiniteDataset(lmin, lmax, power)`: parents
`l = UniformContinuous(lmin, lmax)` and `frac = PowerContinuous(power=power)`
(both with the default seed 42), dataset seed left at the default 42. -/
def myInfiniteDataset (lmin lmax : ℚ) (power : ℤ) : InfiniteDataset :=
  InfiniteDataset.make
    [("l", .uni (UniformContinuous.make lmin lmax 42)),
     ("frac", .pw (PowerContinuous.make 0 1 power 42))] 42

/-- `MixedInfiniteDataset(datasets, ps, seed)`: store children and weights;
raise `ValueError` when `ps` is given with a length different from the number
of children; otherwise `InfiniteDataset.__init__({}, seed)` runs and
`Dataset.__init__` calls `self.reset()` (the mixture override), deeply
resetting every child and seeding the dispatcher stream. -/
def mixedInfiniteDataset (ds : InfList) (ps : Option (List ℚ)) (seed : ℕ) :
    Except PyErr InfiniteDataset :=
  match ps with
  | some l =>
    if ds.len ≠ l.length then .error .valueError
    else .ok (InfiniteDataset.reset (.mixedInfinite seed (RNG.fresh 42) ds (some l)))
  | none => .ok (InfiniteDataset.reset (.mixedInfinite seed (RNG.fresh 42) ds none))

/-- The dataset state after `n` iteration steps. -/
def InfiniteDataset.afterSteps : InfiniteDataset → ℕ → InfiniteDataset
  | d, 0 => d
  | d, n + 1 => InfiniteDataset.afterSteps d.step.2 n

/-- The first `n` outputs (sample value and chosen-child indices per step). -/
def InfiniteDataset.trace : InfiniteDataset → ℕ → List (ℚ × List ℕ)
  | _, 0 => []
  | d, n + 1 => d.step.1 :: InfiniteDataset.trace d.step.2 n

/-- An externally invokable operation on an infinite dataset. -/
inductive DsOp where
  | opNext
  | opReset

/-- Run a sequence of operations, collecting every `next` output. -/
def InfiniteDataset.run : InfiniteDataset → List DsOp → List (ℚ × List ℕ)
  | _, [] => []
  | d, DsOp.opNext :: rest => d.step.1 :: InfiniteDataset.run d.step.2 rest
  | d, DsOp.opReset :: rest => InfiniteDataset.run d.reset rest

/-- One stream-reinitialisation event performed during `reset()`. -/
inductive RstEv where
  | ownStream
  | parentStream (name : String)
deriving DecidableEq

mutual
/-- The sequence of stream reinitialisations a `reset()` call performs, one
event per `reset_rng` call, in program order: a leaf reseeds its own stream
first and then its parents; a mixture resets all child subtrees first and
reseeds the dispatcher's own stream last. -/
def InfiniteDataset.resetTrace : InfiniteDataset → List RstEv
  | .myInfinite _ _ pv => RstEv.ownStream :: pv.map fun p => RstEv.parentStream p.1
  | .mixedInfinite _ _ ds _ => ds.resetTraces ++ [RstEv.ownStream]
/-- Concatenated reset traces of a child list, in construction order. -/
def InfList.resetTraces : InfList → List RstEv
  | .nil => []
  | .cons d rest => d.resetTrace ++ rest.resetTraces
end

/-! ### Lemmas: deep reset restores the post-construction state -/

/-- Sampling the parents does not change what resetting them produces. -/
theorem resetParents_sample (pv : List (String × Continuous)) :
    resetParents (sampleParents pv).2 = resetParents pv := by
  induction pv with
  | nil => rfl
  | cons p rest ih =>
    obtain ⟨nm, c⟩ := p
    simp only [sampleParents, resetParents, List.map_cons, List.cons.injEq, Prod.mk.injEq,
      true_and]
    exact ⟨Continuous.sample_reset c, by simpa [resetParents] using ih⟩

/-- Resetting the parents twice is the same as resetting them once. -/
theorem resetParents_idem (pv : List (String × Continuous)) :
    resetParents (resetParents pv) = resetParents pv := by
  induction pv with
  | nil => rfl
  | cons p rest ih =>
    obtain ⟨nm, c⟩ := p
    simp only [resetParents, List.map_cons, List.cons.injEq, Prod.mk.injEq, true_and]
    refine ⟨?_, ?_⟩
    · rw [Continuous.reset_seed, Continuous.reset_idem]
    · simpa [resetParents] using ih

mutual
/-- A step never changes what a subsequent deep reset produces. -/
theorem InfiniteDataset.reset_step : (d : InfiniteDataset) → d.step.2.reset = d.reset
  | .myInfinite s r pv => by
    simp only [InfiniteDataset.step, InfiniteDataset.reset]
    rw [resetParents_sample]
  | .mixedInfinite s r ds ps => by
    simp only [InfiniteDataset.step, InfiniteDataset.reset]
    rw [InfList.resetAll_stepAt ds (r.choice ds.len ps).1]
/-- Stepping one child never changes what resetting the child list produces. -/
theorem InfList.resetAll_stepAt : (l : InfList) → (i : ℕ) →
    (l.stepAt i).2.resetAll = l.resetAll
  | .nil, _ => rfl
  | .cons d rest, 0 => by
    simp only [InfList.stepAt, InfList.resetAll]
    rw [InfiniteDataset.reset_step d]
  | .cons d rest, i + 1 => by
    simp only [InfList.stepAt, InfList.resetAll]
    rw [InfList.resetAll_stepAt rest i]
end

mutual
/-- Deep reset is idempotent. -/
theorem InfiniteDataset.reset_reset : (d : InfiniteDataset) → d.reset.reset = d.reset
  | .myInfinite s r pv => by
    simp only [InfiniteDataset.reset]
    rw [resetParents_idem]
  | .mixedInfinite s r ds ps => by
    simp only [InfiniteDataset.reset]
    rw [InfList.resetAll_resetAll ds]
/-- Deep reset of a child list is idempotent. -/
theorem InfList.resetAll_resetAll : (l : InfList) → l.resetAll.resetAll = l.resetAll
  | .nil => rfl
  | .cons d rest => by
    simp only [InfList.resetAll]
    rw [InfiniteDataset.reset_reset d, InfList.resetAll_resetAll rest]
end

/-- Any number of steps never changes what a subsequent reset produces. -/
theorem InfiniteDataset.reset_afterSteps :
    (d : InfiniteDataset) → (n : ℕ) → (d.afterSteps n).reset = d.reset
  | _, 0 => rfl
  | d, n + 1 => by
    simp only [InfiniteDataset.afterSteps]
    rw [InfiniteDataset.reset_afterSteps d.step.2 n, InfiniteDataset.reset_step d]

/-- A freshly constructed leaf is a fixed point of reset. -/
theorem InfiniteDataset.make_reset (pv : List (String × Continuous)) (s : ℕ) :
    (InfiniteDataset.make pv s).reset = InfiniteDataset.make pv s :=
  InfiniteDataset.reset_reset _

/-- A freshly constructed mixture is a fixed point of reset: construction
ends in `self.reset()`, and reset is idempotent. -/
theorem mixedInfiniteDataset_reset (ds : InfList) (ps : Option (List ℚ)) (seed : ℕ)
    (m : InfiniteDataset) (h : mixedInfiniteDataset ds ps seed = .ok m) :
    m.reset = m := by
  unfold mixedInfiniteDataset at h
  cases ps with
  | none =>
    simp only [Except.ok.injEq] at h
    rw [← h, InfiniteDataset.reset_reset]
  | some l =>
    by_cases hl : ds.len ≠ l.length
    · simp [hl] at h
    · simp only [hl, if_false, Except.ok.injEq] at h
      rw [← h, InfiniteDataset.reset_reset]

/-! ### Lemmas: the stored dataset seed is dead state -/

/-- Replace only the dataset's own stored `self.seed` field. -/
def InfiniteDataset.withSeed : InfiniteDataset → ℕ → InfiniteDataset
  | .myInfinite _ r pv, s => .myInfinite s r pv
  | .mixedInfinite _ r ds ps, s => .mixedInfinite s r ds ps

/-- The dataset's own stream. -/
def InfiniteDataset.ownRng : InfiniteDataset → RNG
  | .myInfinite _ r _ => r
  | .mixedInfinite _ r _ _ => r

/-- Stepping ignores the stored seed field. -/
theorem InfiniteDataset.step_withSeed (d : InfiniteDataset) (s : ℕ) :
    (d.withSeed s).step = (d.step.1, d.step.2.withSeed s) := by
  cases d <;> simp [InfiniteDataset.withSeed, InfiniteDataset.step]

/-- Resetting ignores the stored seed field (`reset_rng()` is called with no
argument, so the default 42 is used, never `self.seed`). -/
theorem InfiniteDataset.reset_withSeed (d : InfiniteDataset) (s : ℕ) :
    (d.withSeed s).reset = d.reset.withSeed s := by
  cases d <;> simp [InfiniteDataset.withSeed, InfiniteDataset.reset]

/-- No operation sequence can observe the stored seed field. -/
theorem InfiniteDataset.run_withSeed :
    (d : InfiniteDataset) → (s : ℕ) → (ops : List DsOp) →
    (d.withSeed s).run ops = d.run ops
  | _, _, [] => rfl
  | d, s, DsOp.opNext :: rest => by
    simp only [InfiniteDataset.run, InfiniteDataset.step_withSeed]
    rw [InfiniteDataset.run_withSeed d.step.2 s rest]
  | d, s, DsOp.opReset :: rest => by
    simp only [InfiniteDataset.run, InfiniteDataset.reset_withSeed]
    rw [InfiniteDataset.run_withSeed d.reset s rest]

/-- With `ps` absent, the dispatcher's choice is the uniform categorical rule:
index `i` is selected exactly when the unit draw falls in
`[i/n, (i+1)/n)`. -/
theorem RNG.choice_none_uniform (r : RNG) (n i : ℕ) (hi : i < n) :
    (r.choice n none).1 = i ↔
      ((i : ℚ) / n ≤ r.unit.1 ∧ r.unit.1 < ((i : ℚ) + 1) / n) := by
  obtain ⟨h0, h1⟩ := unitVal_mem r.seed r.pos
  have hn : (0 : ℚ) < n := by exact_mod_cast Nat.pos_of_ne_zero (by omega)
  simp only [RNG.choice, RNG.unit]
  set u := unitVal r.seed r.pos with hu
  have hun : u * n < n := by
    calc u * n < 1 * n := by exact mul_lt_mul_of_pos_right h1 hn
    _ = n := one_mul _
  have hfl : ⌊u * (n : ℚ)⌋ < (n : ℤ) := by
    rw [Int.floor_lt]
    push_cast
    exact hun
  have hfl0 : (0 : ℤ) ≤ ⌊u * (n : ℚ)⌋ := Int.floor_nonneg.mpr (by positivity)
  have hmin : min (n - 1) (Int.toNat ⌊u * (n : ℚ)⌋) = Int.toNat ⌊u * (n : ℚ)⌋ :=
    min_eq_right (by omega)
  rw [hmin]
  constructor
  · intro h
    have hfe : ⌊u * (n : ℚ)⌋ = (i : ℤ) := by omega
    have hb := Int.floor_eq_iff.mp hfe
    push_cast at hb
    exact ⟨(div_le_iff₀ hn).mpr hb.1, (lt_div_iff₀ hn).mpr hb.2⟩
  · rintro ⟨ha, hb⟩
    have h1' : (i : ℚ) ≤ u * n := (div_le_iff₀ hn).mp ha
    have h2' : u * n < (i : ℚ) + 1 := (lt_div_iff₀ hn).mp hb
    have hfe : ⌊u * (n : ℚ)⌋ = (i : ℤ) := Int.floor_eq_iff.mpr (by push_cast; exact ⟨h1', h2'⟩)
    omega

/-! ### Claim theorems about infinite datasets -/

/-- C1: for a `MixedInfiniteDataset` built with fixed seeds, drawing any
number of samples and calling `reset()` resumes with exactly the sequence
(sample values and chosen child index at every step) that a brand-new
identically constructed instance produces; and the reset trace of a mixture
is every child's full subtree reset first, the dispatcher's own stream
last. -/
theorem mixedInfinite_reset_matches_fresh :
    (∀ (ds : InfList) (ps : Option (List ℚ)) (seed n k : ℕ),
      (mixedInfiniteDataset ds ps seed).map
          (fun m => ((m.afterSteps n).reset).trace k)
        = (mixedInfiniteDataset ds ps seed).map (fun m => m.trace k))
    ∧ (∀ (s : ℕ) (r : RNG) (ds : InfList) (ps : Option (List ℚ)),
      InfiniteDataset.resetTrace (.mixedInfinite s r ds ps)
        = ds.resetTraces ++ [RstEv.ownStream]) := by
  constructor
  · intro ds ps seed n k
    cases hm : mixedInfiniteDataset ds ps seed with
    | error e => rfl
    | ok m =>
      simp only [Except.map]
      congr 1
      rw [InfiniteDataset.reset_afterSteps, mixedInfiniteDataset_reset ds ps seed m hm]
  · intro s r ds ps
    simp [InfiniteDataset.resetTrace]

/-- C7: constructing a `MixedInfiniteDataset` raises `ValueError` (the spec's
`InvalidArgument`) exactly when an explicit weight list's length differs from
the number of children — the check runs in the constructor, so the error is
never deferred to first use; with `ps` absent construction always succeeds
and the dispatcher selects children by the uniform rule (child `i` iff the
unit draw lies in `[i/n, (i+1)/n)`). -/
theorem mixedInfinite_construction_validation :
    (∀ (ds : InfList) (l : List ℚ) (s : ℕ),
      mixedInfiniteDataset ds (some l) s = .error .valueError ↔ ds.len ≠ l.length)
    ∧ (∀ (ds : InfList) (s : ℕ), ∃ m, mixedInfiniteDataset ds none s = .ok m)
    ∧ (∀ (s : ℕ) (r : RNG) (ds : InfList) (i : ℕ), i < ds.len →
      (((InfiniteDataset.step (.mixedInfinite s r ds none)).1.2.head? = some i) ↔
        ((i : ℚ) / ds.len ≤ r.unit.1 ∧ r.unit.1 < ((i : ℚ) + 1) / ds.len))) := by
  refine ⟨fun ds l s => ?_, fun ds s => ⟨_, rfl⟩, fun s r ds i hi => ?_⟩
  · constructor
    · intro h
      by_contra hc
      simp [mixedInfiniteDataset, hc] at h
    · intro h
      simp [mixedInfiniteDataset, h]
  · have hstep : (InfiniteDataset.step (.mixedInfinite s r ds none)).1.2.head?
        = some (r.choice ds.len none).1 := by
      simp [InfiniteDataset.step]
    rw [hstep, Option.some.injEq]
    exact RNG.choice_none_uniform r ds.len i hi

/-- C7 witness: a two-child mixture without weights; child 1 is selected on
the first draw exactly because the first unit draw of the default stream,
0.77395605, lies in `[1/2, 2/2)`; and an empty weight list against one child
raises at construction. -/
theorem mixedInfinite_construction_validation_witness :
    (mixedInfiniteDataset (.cons (myInfiniteDataset 1 2 1) .nil) (some []) 42
        = .error .valueError ↔
      InfList.len (.cons (myInfiniteDataset 1 2 1) .nil) ≠ List.length ([] : List ℚ))
    ∧ (1 : ℕ) < InfList.len (.cons (myInfiniteDataset 1 2 1)
        (.cons (myInfiniteDataset (1 / 10) (25 / 100) 3) .nil))
    ∧ (((InfiniteDataset.step (.mixedInfinite 42 (RNG.fresh 42)
          (.cons (myInfiniteDataset 1 2 1)
            (.cons (myInfiniteDataset (1 / 10) (25 / 100) 3) .nil)) none)).1.2.head?
        = some 1) ↔
      ((1 : ℚ) / InfList.len (.cons (myInfiniteDataset 1 2 1)
          (.cons (myInfiniteDataset (1 / 10) (25 / 100) 3) .nil))
          ≤ (RNG.fresh 42).unit.1
        ∧ (RNG.fresh 42).unit.1
          < ((1 : ℚ) + 1) / InfList.len (.cons (myInfiniteDataset 1 2 1)
              (.cons (myInfiniteDataset (1 / 10) (25 / 100) 3) .nil)))) :=
  ⟨mixedInfinite_construction_validation.1 _ [] 42,
   by simp [InfList.len],
   mixedInfinite_construction_validation.2.2 42 (RNG.fresh 42) _ 1 (by simp [InfList.len])⟩

/-- C8: `PowerContinuous.sample()` is exactly the internal uniform's sample
raised to the stored power, and its state change touches only the internal
uniform; `reset_rng(seed)` forwards entirely to the internal uniform's
`reset_rng`, leaving the exponent, the stored seed, and the internal
uniform's configuration fields unchanged — the variant owns no stream of its
own. -/
theorem powerContinuous_sample_and_reset_forward (p : PowerContinuous) (s : ℕ) :
    (Continuous.sample (.pw p)).1 = p.uniform.sample.1 ^ p.power
    ∧ (Continuous.sample (.pw p)).2 = .pw ⟨p.power, p.uniform.sample.2, p.seed⟩
    ∧ Continuous.reset_rng (.pw p) s = .pw ⟨p.power, p.uniform.reset_rng s, p.seed⟩
    ∧ (p.reset_rng s).uniform.seed = p.uniform.seed
    ∧ (p.reset_rng s).uniform.lo = p.uniform.lo
    ∧ (p.reset_rng s).uniform.hi = p.uniform.hi
    ∧ (p.reset_rng s).uniform.rng = RNG.fresh s :=
  ⟨rfl, rfl, rfl, rfl, rfl, rfl, rfl⟩

/-- C9: for `MyInfiniteDataset(1, 2, 1)` — parent `l = Uniform(1, 2)`,
parent `frac = PowerTransformed(power=1)`, combiner `frac * l` — the first
sample after construction lies in `[1, 2)` (both parent streams are seeded
42, so the first sample is `u0 * (1 + u0)` with `u0 = 0.77395605`), and after
`reset()` at any point the first sample drawn equals the first sample drawn
after construction. -/
theorem myInfinite_first_sample_scenario :
    (1 ≤ (myInfiniteDataset 1 2 1).step.1.1 ∧ (myInfiniteDataset 1 2 1).step.1.1 < 2)
    ∧ ∀ n : ℕ, (((myInfiniteDataset 1 2 1).afterSteps n).reset).step.1.1
        = (myInfiniteDataset 1 2 1).step.1.1 := by
  constructor
  · norm_num [myInfiniteDataset, InfiniteDataset.make, InfiniteDataset.reset, resetParents,
      Continuous.reset_rng, Continuous.seed, UniformContinuous.make, UniformContinuous.reset_rng,
      PowerContinuous.make, PowerContinuous.reset_rng, InfiniteDataset.step, sampleParents,
      Continuous.sample, UniformContinuous.sample, PowerContinuous.sample, RNG.uniform, RNG.unit,
      RNG.fresh, unitVal, rng42, genSample, List.lookup,
      show ("frac" == "l") = false from rfl, show ("frac" == "frac") = true from rfl]
  · intro n
    rw [InfiniteDataset.reset_afterSteps]
    rw [show (myInfiniteDataset 1 2 1).reset = myInfiniteDataset 1 2 1 from
      InfiniteDataset.reset_reset _]

/-- C10: the constructor seed argument of an infinite dataset (leaf or
mixture) never influences behavior: any operation sequence of `next` and
`reset` calls produces identical outputs for two instances that differ only
in that argument, because construction and every reset reseed the dataset's
own stream with the fixed default 42 (`self.reset_rng()` is called without
the stored seed). -/
theorem dataset_seed_argument_irrelevant :
    (∀ (pv : List (String × Continuous)) (s1 s2 : ℕ) (ops : List DsOp),
      (InfiniteDataset.make pv s1).run ops = (InfiniteDataset.make pv s2).run ops)
    ∧ (∀ (ds : InfList) (ps : Option (List ℚ)) (s1 s2 : ℕ) (ops : List DsOp),
      (mixedInfiniteDataset ds ps s1).map (fun m => m.run ops)
        = (mixedInfiniteDataset ds ps s2).map (fun m => m.run ops))
    ∧ (∀ d : InfiniteDataset, d.reset.ownRng = RNG.fresh 42) := by
  have key : ∀ (x : InfiniteDataset) (s : ℕ) (ops : List DsOp),
      ((x.withSeed s).reset).run ops = (x.reset).run ops := by
    intro x s ops
    rw [InfiniteDataset.reset_withSeed, InfiniteDataset.run_withSeed]
  refine ⟨fun pv s1 s2 ops => ?_, fun ds ps s1 s2 ops => ?_, fun d => ?_⟩
  · have h1 := key (.myInfinite 0 (RNG.fresh 42) pv) s1 ops
    have h2 := key (.myInfinite 0 (RNG.fresh 42) pv) s2 ops
    exact h1.trans h2.symm
  · cases ps with
    | none =>
      simp only [mixedInfiniteDataset, Except.map]
      congr 1
      have h1 := key (.mixedInfinite 0 (RNG.fresh 42) ds none) s1 ops
      have h2 := key (.mixedInfinite 0 (RNG.fresh 42) ds none) s2 ops
      exact h1.trans h2.symm
    | some l =>
      by_cases hl : ds.len ≠ l.length
      · simp [mixedInfiniteDataset, hl]
      · simp only [mixedInfiniteDataset, hl, if_false, Except.map]
        congr 1
        have h1 := key (.mixedInfinite 0 (RNG.fresh 42) ds (some l)) s1 ops
        have h2 := key (.mixedInfinite 0 (RNG.fresh 42) ds (some l)) s2 ops
        exact h1.trans h2.symm
  · cases d <;> rfl

end Mix
